import Mathlib

/-!
Verification development for the job-tracker pipeline
(`scripts/common/dedup.py`, `scripts/common/job_scoring.py`,
`scripts/tavily_scraper.py`).

Python strings are modelled as Lean `String` / `List Char`; `str.lower`
is modelled character-wise (the repository only manipulates ASCII
keywords), `str.strip` with the ASCII whitespace set, `bytes` as
`List Nat` (each entry < 256), and `hashlib.md5` by a full executable
MD5 implementation.  Python `dict` (insertion-ordered) is modelled as an
association list, `set` as a list with membership semantics.
-/

namespace JobTracker

/-- ASCII whitespace set used by Python `str.strip`. -/
def isPyWs (c : Char) : Bool :=
  c = ' ' || c = '\t' || c = '\n' || c = '\r' || c = Char.ofNat 11 || c = Char.ofNat 12

/-- Model of Python `str.strip()` on a character list: drop whitespace
from both ends. -/
def pyStripL (l : List Char) : List Char :=
  ((l.dropWhile isPyWs).reverse.dropWhile isPyWs).reverse

/-- Model of Python `str.strip()` on strings. -/
def pyStrip (s : String) : String := ⟨pyStripL s.data⟩

/-- Character-wise model of Python `str.lower()` (ASCII). -/
def lowerL (l : List Char) : List Char := l.map Char.toLower

/-- Scanner loop of Python `str.split(sep)` for a non-empty separator:
cut at every left-to-right, non-overlapping separator occurrence (`cur`
holds the current segment reversed; the fuel, any bound above the input
length, makes the recursion structural). -/
def splitGo : Nat → List Char → List Char → List Char → List (List Char)
  | 0, _, cur, _ => [cur.reverse]
  | fuel + 1, sep, cur, l =>
    if sep.isPrefixOf l then cur.reverse :: splitGo fuel sep [] (l.drop sep.length)
    else
      match l with
      | [] => [cur.reverse]
      | c :: rest => splitGo fuel sep (c :: cur) rest

/-- Model of Python `str.split(sep)` with a non-empty separator. -/
def pySplit (sep s : String) : List String :=
  (splitGo (s.data.length + 1) sep.data [] s.data).map (fun l => ⟨l⟩)

/-- UTF-8 encoding of one code point, as in Python `str.encode()`. -/
def utf8Char (n : Nat) : List Nat :=
  if n < 128 then [n]
  else if n < 2048 then [192 + n / 64, 128 + n % 64]
  else if n < 65536 then [224 + n / 4096, 128 + n / 64 % 64, 128 + n % 64]
  else [240 + n / 262144, 128 + n / 4096 % 64, 128 + n / 64 % 64, 128 + n % 64]

/-- UTF-8 encoding of a string, as in Python `str.encode()`. -/
def utf8Encode (s : String) : List Nat := s.data.flatMap (fun c => utf8Char c.toNat)

/-- 2^32, the modulus for 32-bit arithmetic in MD5. -/
def M32 : Nat := 4294967296

/-- 32-bit addition. -/
def add32 (a b : Nat) : Nat := (a + b) % M32

/-- 32-bit complement (argument below 2^32). -/
def not32 (a : Nat) : Nat := 4294967295 - a

/-- 32-bit left rotation (argument below 2^32, shift below 32). -/
def rotl32 (x s : Nat) : Nat := x * 2 ^ s % M32 + x / 2 ^ (32 - s)

/-- MD5 per-round sine-derived constants (RFC 1321 `T` table). -/
def md5K : List Nat :=
  [0xd76aa478, 0xe8c7b756, 0x242070db, 0xc1bdceee,
   0xf57c0faf, 0x4787c62a, 0xa8304613, 0xfd469501,
   0x698098d8, 0x8b44f7af, 0xffff5bb1, 0x895cd7be,
   0x6b901122, 0xfd987193, 0xa679438e, 0x49b40821,
   0xf61e2562, 0xc040b340, 0x265e5a51, 0xe9b6c7aa,
   0xd62f105d, 0x02441453, 0xd8a1e681, 0xe7d3fbc8,
   0x21e1cde6, 0xc33707d6, 0xf4d50d87, 0x455a14ed,
   0xa9e3e905, 0xfcefa3f8, 0x676f02d9, 0x8d2a4c8a,
   0xfffa3942, 0x8771f681, 0x6d9d6122, 0xfde5380c,
   0xa4beea44, 0x4bdecfa9, 0xf6bb4b60, 0xbebfbc70,
   0x289b7ec6, 0xeaa127fa, 0xd4ef3085, 0x04881d05,
   0xd9d4d039, 0xe6db99e5, 0x1fa27cf8, 0xc4ac5665,
   0xf4292244, 0x432aff97, 0xab9423a7, 0xfc93a039,
   0x655b59c3, 0x8f0ccc92, 0xffeff47d, 0x85845dd1,
   0x6fa87e4f, 0xfe2ce6e0, 0xa3014314, 0x4e0811a1,
   0xf7537e82, 0xbd3af235, 0x2ad7d2bb, 0xeb86d391]

/-- MD5 per-round left-rotation amounts. -/
def md5S : List Nat :=
  [7, 12, 17, 22, 7, 12, 17, 22, 7, 12, 17, 22, 7, 12, 17, 22,
   5, 9, 14, 20, 5, 9, 14, 20, 5, 9, 14, 20, 5, 9, 14, 20,
   4, 11, 16, 23, 4, 11, 16, 23, 4, 11, 16, 23, 4, 11, 16, 23,
   6, 10, 15, 21, 6, 10, 15, 21, 6, 10, 15, 21, 6, 10, 15, 21]

/-- Little-endian byte serialization of a number into `n` bytes. -/
def toBytesLE (n x : Nat) : List Nat := (List.range n).map (fun i => x / 256 ^ i % 256)

/-- Read a 32-bit word from four little-endian bytes. -/
def wordOfBytes (l : List Nat) : Nat :=
  l.getD 0 0 + 256 * l.getD 1 0 + 65536 * l.getD 2 0 + 16777216 * l.getD 3 0

/-- MD5 padding: append `0x80`, zero bytes up to 56 mod 64, then the
64-bit little-endian bit length. -/
def md5Pad (msg : List Nat) : List Nat :=
  msg ++ [128] ++ List.replicate ((119 - msg.length % 64) % 64) 0 ++
    toBytesLE 8 (8 * msg.length % 2 ^ 64)

/-- One MD5 round: state update for round index `i` with message words `M`. -/
def md5Round (M : List Nat) (st : Nat × Nat × Nat × Nat) (i : Nat) : Nat × Nat × Nat × Nat :=
  let a := st.1
  let b := st.2.1
  let c := st.2.2.1
  let d := st.2.2.2
  let fg : Nat × Nat :=
    if i < 16 then (b &&& c ||| not32 b &&& d, i)
    else if i < 32 then (d &&& b ||| not32 d &&& c, (5 * i + 1) % 16)
    else if i < 48 then (b ^^^ c ^^^ d, (3 * i + 5) % 16)
    else (c ^^^ (b ||| not32 d), 7 * i % 16)
  let v := add32 (add32 (add32 fg.1 a) (md5K.getD i 0)) (M.getD fg.2 0)
  (d, add32 b (rotl32 v (md5S.getD i 0)), b, c)

/-- Process one 64-byte chunk, updating the running MD5 state. -/
def md5Chunk (st : Nat × Nat × Nat × Nat) (chunk : List Nat) : Nat × Nat × Nat × Nat :=
  let M := (List.range 16).map (fun j => wordOfBytes ((chunk.drop (4 * j)).take 4))
  let r := (List.range 64).foldl (md5Round M) st
  (add32 st.1 r.1, add32 st.2.1 r.2.1, add32 st.2.2.1 r.2.2.1, add32 st.2.2.2 r.2.2.2)

/-- Fold the MD5 compression over consecutive 64-byte chunks; the fuel
argument (any bound on the byte count) makes the recursion structural so
that digests reduce inside the kernel. -/
def md5ChunksGo : Nat → Nat × Nat × Nat × Nat → List Nat → Nat × Nat × Nat × Nat
  | 0, st, _ => st
  | fuel + 1, st, l =>
    if l = [] then st else md5ChunksGo fuel (md5Chunk st (l.take 64)) (l.drop 64)

/-- Fold the MD5 compression over consecutive 64-byte chunks. -/
def md5Chunks (st : Nat × Nat × Nat × Nat) (l : List Nat) : Nat × Nat × Nat × Nat :=
  md5ChunksGo l.length st l

/-- Full MD5 digest (16 bytes) of a byte message. -/
def md5Bytes (msg : List Nat) : List Nat :=
  let r := md5Chunks (0x67452301, 0xefcdab89, 0x98badcfe, 0x10325476) (md5Pad msg)
  toBytesLE 4 r.1 ++ toBytesLE 4 r.2.1 ++ toBytesLE 4 r.2.2.1 ++ toBytesLE 4 r.2.2.2

/-- Lower-case hex digit of a value below 16. -/
def hexChar (n : Nat) : Char := if n < 10 then Char.ofNat (48 + n) else Char.ofNat (87 + n)

/-- Model of Python `hashlib.md5(b).hexdigest()`: 32 lower-case hex characters. -/
def md5HexChars (msg : List Nat) : List Char :=
  (md5Bytes msg).flatMap (fun b => [hexChar (b / 16), hexChar (b % 16)])

/-- MD5 hex digest of a string's UTF-8 bytes, truncated to 12 characters:
the identity hash used throughout the pipeline. -/
def md5Hex12 (s : String) : String := ⟨(md5HexChars (utf8Encode s)).take 12⟩

/-- Canonical job record (Python `dict`); absent fields default to the
values Python's `dict.get(key, default)` supplies. -/
structure Job where
  title : String := ""
  company : String := ""
  location : String := ""
  description : String := ""
  url : String := ""
  postedDate : String := ""
  salary : String := ""
  employmentType : String := ""
  experienceLevel : String := ""
  remote : Bool := false
  source : String := ""
  scrapedAt : String := ""
  id : String := ""
  matchScore : Nat := 0
  matchReason : String := ""
deriving DecidableEq, Repr, Inhabited

/-- Embedding of `dedup.generate_job_id`: md5 of the stripped URL when
non-empty, else md5 of `title-company-location`, truncated to 12 hex chars. -/
def generate_job_id (job : Job) : String :=
  let url := pyStrip job.url
  if url ≠ "" then ⟨(md5HexChars (utf8Encode url)).take 12⟩
  else ⟨(md5HexChars (utf8Encode (job.title ++ "-" ++ job.company ++ "-" ++ job.location))).take 12⟩

/-- Characters kept by `_normalize_title`'s regex class `[a-z0-9 ]`. -/
def isTitleKeep (c : Char) : Bool :=
  ('a' ≤ c && c ≤ 'z') || ('0' ≤ c && c ≤ '9') || c = ' '

/-- Embedding of `dedup._normalize_title`: lowercase, delete characters
outside `[a-z0-9 ]`, strip. -/
def normTitle (t : String) : String := ⟨pyStripL ((lowerL t.data).filter isTitleKeep)⟩

/-- The Pass-2 grouping key of a record. -/
def keyOf (j : Job) : String := normTitle j.title

/-- The `SOURCE_RANK` dict of `deduplicate_jobs`. -/
def SOURCE_RANK : List (String × Nat) :=
  [("linkedin", 0), ("indeed", 1), ("glassdoor", 2), ("builtin", 3), ("wellfound", 4)]

/-- `SOURCE_RANK.get(source, 99)`. -/
def srcRank (s : String) : Nat := ((SOURCE_RANK.find? (fun p => p.1 == s)).map Prod.snd).getD 99

/-- Pass 1 of `deduplicate_jobs`: keep the first record per distinct
stripped URL (`seen` is the accumulated `seen_urls` set). -/
def pass1Go (seen : List String) : List Job → List Job
  | [] => []
  | j :: rest =>
    let url := pyStrip j.url
    if url ∈ seen then pass1Go seen rest
    else j :: pass1Go (url :: seen) rest

/-- Pass 1 of `deduplicate_jobs` started from an empty seen set. -/
def pass1 (jobs : List Job) : List Job := pass1Go [] jobs

/-- In-place value replacement for the insertion-ordered `title_map`
model: `title_map[key] = job` on an existing key keeps the key's
position. -/
def replaceKey (key : String) (j : Job) (m : List (String × Job)) : List (String × Job) :=
  m.map (fun q => if q.1 == key then (key, j) else q)

/-- One step of Pass 2 of `deduplicate_jobs` on the insertion-ordered
`title_map` (modelled as an association list): skip empty keys, insert
new keys at the end, replace the stored record when the new source rank
is strictly smaller. -/
def pass2Step (m : List (String × Job)) (j : Job) : List (String × Job) :=
  let key := keyOf j
  if key = "" then m
  else
    match m.find? (fun p => p.1 == key) with
    | none => m ++ [(key, j)]
    | some p =>
      if srcRank j.source < srcRank p.2.source then replaceKey key j m
      else m

/-- Embedding of `dedup.deduplicate_jobs`: URL pass then fuzzy-title pass;
the result is `list(title_map.values())` in key-insertion order. -/
def deduplicate_jobs (jobs : List Job) : List Job :=
  ((pass1 jobs).foldl pass2Step []).map Prod.snd

/-- Capture attempt for the regex `\[(?:Apply|Link)\]\(([^)]+)\)` at the
start of `after` past the opening marker: a non-empty run of
non-`)` characters followed by `)`. -/
def extractUrl (after : List Char) : Option (List Char × List Char) :=
  let body := after.takeWhile (fun c => c ≠ ')')
  if body.length = 0 then none
  else if (after.drop body.length).take 1 = [')'] then some (body, after.drop (body.length + 1))
  else none

/-- Match of the link regex anchored at the current position. -/
def tryLink (l : List Char) : Option (List Char × List Char) :=
  if "[Apply](".data.isPrefixOf l then extractUrl (l.drop 8)
  else if "[Link](".data.isPrefixOf l then extractUrl (l.drop 7)
  else none

theorem extractUrl_length {a : List Char} {u r : List Char}
    (h : extractUrl a = some (u, r)) : r.length < a.length := by
  simp only [extractUrl] at h
  split at h
  · exact absurd h (by simp)
  · split at h
    · rename_i hbody htake
      obtain ⟨rfl, rfl⟩ : u = a.takeWhile (fun c => c ≠ ')') ∧
          r = a.drop ((a.takeWhile (fun c => c ≠ ')')).length + 1) := by
        simpa using h.symm
      have hlen : 0 < a.length := by
        by_contra hc
        have : a = [] := List.eq_nil_of_length_eq_zero (Nat.eq_zero_of_not_pos hc)
        subst this
        simp at htake
      simp only [List.length_drop]
      exact Nat.sub_lt hlen (Nat.succ_pos _)
    · exact absurd h (by simp)

theorem tryLink_length {l : List Char} {u r : List Char}
    (h : tryLink l = some (u, r)) : r.length < l.length := by
  unfold tryLink at h
  split at h
  · rename_i hp
    have := extractUrl_length h
    have h8 : l.length ≥ 8 := by
      have := List.IsPrefix.length_le (List.isPrefixOf_iff_prefix.mp hp)
      simpa using this
    have := Nat.lt_of_lt_of_le this (by simp [List.length_drop] : (l.drop 8).length ≤ l.length)
    exact this
  · split at h
    · rename_i hp
      have := extractUrl_length h
      exact Nat.lt_of_lt_of_le this (by simp [List.length_drop])
    · exact absurd h (by simp)

/-- Scanner loop behind `findLinks`; the fuel argument (any bound on the
character count, justified by `tryLink_length`) makes the recursion
structural so that scans reduce inside the kernel. -/
def findLinksGo : Nat → List Char → List (List Char)
  | 0, _ => []
  | fuel + 1, l =>
    match tryLink l with
    | some ur => ur.1 :: findLinksGo fuel ur.2
    | none =>
      match l with
      | [] => []
      | _ :: rest => findLinksGo fuel rest

/-- Model of `re.findall(r"\[(?:Apply|Link)\]\(([^)]+)\)", part)`:
left-to-right, non-overlapping captures. -/
def findLinks (l : List Char) : List (List Char) := findLinksGo l.length l

/-- Identity hashes recovered from one tracker line by `load_seen_jobs`:
lines without a `|`, or starting with `|--`, are skipped; each remaining
line is split into `|`-cells, stripped, and every link capture is hashed. -/
def lineSeen (line : String) : List String :=
  if '|' ∈ line.data ∧ ¬ "|--".data.isPrefixOf line.data then
    ((pySplit "|" line).map pyStrip).flatMap
      (fun part => (findLinks part.data).map (fun url => ⟨(md5HexChars (utf8Encode ⟨url⟩)).take 12⟩))
  else []

/-- Identity hashes recovered from one tracker file's content. -/
def contentSeen (content : String) : List String := (pySplit "\n" content).flatMap lineSeen

/-- Embedding of `dedup.load_seen_jobs`.  The filesystem is shallowly
embedded: `none` is a missing vault directory, `some files` the contents
of the tracker files found by the glob (the empty list when none match).
Python's `set` of ids is modelled as a list with membership semantics. -/
def load_seen_jobs (vault : Option (List String)) : List String :=
  match vault with
  | none => []
  | some files => files.flatMap contentSeen

/-- Embedding of `dedup.filter_seen_jobs`: drop records whose id is in
the recovered seen set. -/
def filter_seen_jobs (jobs : List Job) (vault : Option (List String)) : List Job :=
  let seen := load_seen_jobs vault
  jobs.filter (fun j => ¬ j.id ∈ seen)

/-- The `_BONUS_RULES` table of `job_scoring.py`: keyword groups with the
points awarded when any group member occurs in the combined text. -/
def BONUS_RULES : List (List String × Nat) :=
  [(["data analyst", "data analysis"], 15),
   (["research analyst", "research data analyst"], 15),
   (["informatics analyst", "health informatics"], 15),
   (["clinical data analyst", "clinical analyst"], 15),
   (["data scientist", "data science"], 15),
   (["machine learning engineer", "ml engineer"], 10),
   (["healthcare", "clinical", "medical", "health system"], 10),
   (["ehr", "electronic health record", "epic", "cerner", "omop", "i2b2", "fhir"], 10),
   (["research", "scientist"], 10),
   (["phd", "doctoral", "graduate"], 8),
   (["wearable", "sensor", "iot", "fitbit"], 8),
   (["remote", "hybrid"], 5)]

/-- The combined lowercased text `title + ' ' + description + ' ' + company`
that `score_job` matches against. -/
def jobText (j : Job) : List Char := lowerL (j.title ++ " " ++ j.description ++ " " ++ j.company).data

/-- Embedding of `job_scoring.score_job`: +5 per profile skill found as a
substring of the combined text (collecting the matches), plus each bonus
rule's points when any of its keywords is found, capped at 100; the reason
names up to the first six matched skills. -/
def score_job (job : Job) (resumeSkills : List String) : Nat × String :=
  let text := jobText job
  let sm := resumeSkills.foldl
    (fun acc skill => if skill.data <:+: text then (acc.1 + 5, acc.2 ++ [skill]) else acc)
    ((0 : Nat), ([] : List String))
  let score := BONUS_RULES.foldl
    (fun acc r => if r.1.any (fun kw => decide (kw.data <:+: text)) then acc + r.2 else acc) sm.1
  let score := min score 100
  let reason :=
    if sm.2 ≠ [] then "Matches: " ++ String.intercalate ", " (sm.2.take 6) else "General fit"
  (score, reason)

/-- Ordering used by `jobs.sort(key=lambda x: x['match_score'], reverse=True)`:
`a` may come before `b` when its score is at least `b`'s. -/
def byScoreDesc (a b : Job) : Prop := b.matchScore ≤ a.matchScore

instance : DecidableRel byScoreDesc := fun a b => Nat.decLe b.matchScore a.matchScore

instance : IsTotal Job byScoreDesc := ⟨fun a b => (Nat.le_total b.matchScore a.matchScore)⟩

instance : IsTrans Job byScoreDesc := ⟨fun _ _ _ hab hbc => Nat.le_trans hbc hab⟩

/-- Embedding of `job_scoring.score_jobs` on an explicit skill profile:
attach score and reason to every record, then stable-sort by score
descending (Python's `list.sort` is a stable sort; `insertionSort` with
`byScoreDesc` computes exactly that stable descending order). -/
def score_jobs (jobs : List Job) (resumeSkills : List String) : List Job :=
  let scored := jobs.map (fun j =>
    let sr := score_job j resumeSkills
    {j with matchScore := sr.1, matchReason := sr.2})
  scored.insertionSort byScoreDesc

/-- Raw Tavily search result record (the fields the normalizer reads);
missing fields default to the empty string as with `dict.get`. -/
structure RawResult where
  title : String := ""
  content : String := ""
  rawContent : String := ""
  url : String := ""
  publishedDate : String := ""
deriving DecidableEq, Repr, Inhabited

/-- Trailing site-name suffixes stripped by the tavily extractors. -/
def SITE_SUFFIXES : List String :=
  [" | LinkedIn", " - Indeed", " | Indeed.com", " - Glassdoor",
   " | Glassdoor", " | Built In", " | Wellfound"]

/-- The suffix-stripping loop of `extract_job_title`. -/
def stripSuffixes (t : String) : String :=
  SITE_SUFFIXES.foldl
    (fun cur suf =>
      if suf.data <:+ cur.data then ⟨cur.data.take (cur.data.length - suf.data.length)⟩ else cur)
    t

/-- Embedding of `tavily_scraper.extract_job_title`: strip site suffixes,
then keep the first segment before `" - "` or `" at "`, stripped. -/
def extract_job_title (result : RawResult) : String :=
  let title := stripSuffixes result.title
  if " - ".data <:+: title.data then pyStrip ((pySplit " - " title).headD "")
  else if " at ".data <:+: title.data then pyStrip ((pySplit " at " title).headD "")
  else pyStrip title

/-- Embedding of `tavily_scraper.detect_source`: first matching domain in
the `domain_map` insertion order, else `other`. -/
def detect_source (url : String) : String :=
  if "linkedin.com".data <:+: url.data then "linkedin"
  else if "indeed.com".data <:+: url.data then "indeed"
  else if "glassdoor.com".data <:+: url.data then "glassdoor"
  else if "builtin.com".data <:+: url.data then "builtin"
  else if "wellfound.com".data <:+: url.data then "wellfound"
  else "other"

/-- Embedding of `tavily_scraper.normalize_tavily_result`.  The three
regex-heavy extractors (`extract_company`, `extract_location`,
`extract_salary`) are shallowly embedded as function parameters — they
are pure functions of the raw record, and nothing below depends on their
internals.  `datetime.now().isoformat()` is embedded as the explicit
clock reading `now`. -/
def normalize_tavily_result
    (extractCompany extractLocation extractSalary : RawResult → String)
    (now : String) (result : RawResult) : Job :=
  let url := result.url
  let title := extract_job_title result
  let company := extractCompany result
  let location := extractLocation result
  let job : Job :=
    { title := title, company := company, location := location,
      description := result.content, url := url,
      postedDate := result.publishedDate,
      salary := extractSalary result,
      employmentType := "", experienceLevel := "",
      remote := decide ("remote".data <:+: lowerL (title ++ " " ++ location ++ " " ++ result.content).data),
      source := detect_source url, scrapedAt := now, id := "" }
  {job with id := generate_job_id job}

/-! ### Helper lemmas about `score_job` -/

theorem score_fold_eq (text : List Char) :
    ∀ (skills : List String) (n : Nat) (acc : List String),
      skills.foldl
        (fun acc' skill => if skill.data <:+: text then (acc'.1 + 5, acc'.2 ++ [skill]) else acc')
        (n, acc) =
      (n + 5 * skills.countP (fun s => decide (s.data <:+: text)),
       acc ++ skills.filter (fun s => decide (s.data <:+: text)))
  | [], n, acc => by simp
  | s :: rest, n, acc => by
    by_cases h : s.data <:+: text
    · rw [List.foldl_cons, if_pos h, score_fold_eq text rest (n + 5) (acc ++ [s])]
      have hc : (s :: rest).countP (fun s => decide (s.data <:+: text)) =
          rest.countP (fun s => decide (s.data <:+: text)) + 1 := by
        simp [List.countP_cons, h]
      have hf : (s :: rest).filter (fun s => decide (s.data <:+: text)) =
          s :: rest.filter (fun s => decide (s.data <:+: text)) := by
        simp [List.filter_cons, h]
      rw [hc, hf]
      simp only [Prod.mk.injEq]
      exact ⟨by omega, by simp⟩
    · rw [List.foldl_cons, if_neg h, score_fold_eq text rest n acc]
      have hc : (s :: rest).countP (fun s => decide (s.data <:+: text)) =
          rest.countP (fun s => decide (s.data <:+: text)) := by
        simp [List.countP_cons, h]
      have hf : (s :: rest).filter (fun s => decide (s.data <:+: text)) =
          rest.filter (fun s => decide (s.data <:+: text)) := by
        simp [List.filter_cons, h]
      rw [hc, hf]

theorem bonus_fold_eq (text : List Char) :
    ∀ (rules : List (List String × Nat)) (n : Nat),
      rules.foldl
        (fun acc r => if r.1.any (fun kw => decide (kw.data <:+: text)) then acc + r.2 else acc) n =
      n + (rules.map
        (fun r => if r.1.any (fun kw => decide (kw.data <:+: text)) then r.2 else 0)).sum
  | [], n => by simp
  | r :: rest, n => by
    by_cases h : r.1.any (fun kw => decide (kw.data <:+: text)) = true
    · rw [List.foldl_cons, if_pos h, bonus_fold_eq text rest (n + r.2)]
      simp only [List.map_cons, List.sum_cons, if_pos h]
      omega
    · rw [List.foldl_cons, if_neg h, bonus_fold_eq text rest n]
      simp only [List.map_cons, List.sum_cons, if_neg h]
      omega

/-- The fixed bonus total of a text: each rule's points when any of its
keywords occurs in the text. -/
def bonusSum (text : List Char) : Nat :=
  (BONUS_RULES.map
    (fun r => if r.1.any (fun kw => decide (kw.data <:+: text)) then r.2 else 0)).sum

theorem score_job_eq (job : Job) (skills : List String) :
    score_job job skills =
      (min (5 * skills.countP (fun s => decide (s.data <:+: jobText job)) + bonusSum (jobText job)) 100,
       if skills.filter (fun s => decide (s.data <:+: jobText job)) ≠ [] then
         "Matches: " ++
           String.intercalate ", " ((skills.filter (fun s => decide (s.data <:+: jobText job))).take 6)
       else "General fit") := by
  simp only [score_job, score_fold_eq, bonus_fold_eq, bonusSum, Nat.zero_add, List.nil_append]

theorem jobText_parts (j : Job) :
    jobText j =
      lowerL j.title.data ++ [' '] ++ lowerL j.description.data ++ [' '] ++ lowerL j.company.data := by
  simp [jobText, lowerL, String.data_append, List.map_append]

theorem countP_eq_card_filter_toFinset (job : Job) (skills : List String)
    (hnd : skills.Nodup) :
    skills.countP (fun s => decide (s.data <:+: jobText job)) =
      (skills.toFinset.filter (fun s => s.data <:+: jobText job)).card := by
  rw [List.countP_eq_length_filter,
    ← List.toFinset_card_of_nodup (hnd.filter (fun s => decide (s.data <:+: jobText job))),
    List.toFinset_filter]
  congr 1
  refine Finset.filter_congr ?_
  intro x _
  simp

/-- C3: for a duplicate-free skill profile, `score_job` returns
5 points per distinct profile skill found as a substring of the combined
lowercased `title + description + company` text, plus the points of every
bonus rule with at least one keyword in that text, capped at 100 (so the
score always lies in `[0, 100]`); on profile `["python", "sql"]` and a job
whose text contains both plus `"remote"` and nothing else it returns
score 15 with reason `"Matches: python, sql"`. -/
theorem score_job_formula_and_example :
    (∀ (job : Job) (skills : List String), skills.Nodup →
      (score_job job skills).1 =
        min (5 * (skills.toFinset.filter (fun s => s.data <:+: jobText job)).card +
          bonusSum (jobText job)) 100 ∧
      (score_job job skills).1 ≤ 100) ∧
    score_job {title := "python sql remote"} ["python", "sql"] = (15, "Matches: python, sql") := by
  constructor
  · intro job skills hnd
    constructor
    · rw [score_job_eq, ← countP_eq_card_filter_toFinset job skills hnd]
    · rw [score_job_eq]
      exact min_le_right _ _
  · decide

/-- Witness for C3 at the spec's own example. -/
theorem score_job_formula_witness :
    (["python", "sql"] : List String).Nodup ∧
    (score_job {title := "python sql remote"} ["python", "sql"]).1 =
      min (5 * ((["python", "sql"] : List String).toFinset.filter
        (fun s => s.data <:+: jobText {title := "python sql remote"})).card +
        bonusSum (jobText {title := "python sql remote"})) 100 :=
  ⟨by decide,
   (score_job_formula_and_example.1 {title := "python sql remote"} ["python", "sql"] (by decide)).1⟩

theorem filter_score_orderedInsert (c : Nat) (x : Job) :
    ∀ L : List Job,
      (L.orderedInsert byScoreDesc x).filter (fun j => j.matchScore == c) =
        if x.matchScore == c then x :: L.filter (fun j => j.matchScore == c)
        else L.filter (fun j => j.matchScore == c)
  | [] => by
    by_cases hx : x.matchScore = c <;>
      simp [List.orderedInsert, List.filter_cons, List.filter_nil, hx]
  | b :: L => by
    by_cases hr : byScoreDesc x b
    · rw [List.orderedInsert, if_pos hr]
      by_cases hx : x.matchScore = c <;>
        by_cases hb : b.matchScore = c <;>
          simp [List.filter_cons, hx, hb]
    · rw [List.orderedInsert, if_neg hr]
      by_cases hx : x.matchScore = c
      · by_cases hb : b.matchScore = c
        · exact absurd (by simp [byScoreDesc, hx, hb] : byScoreDesc x b) hr
        · simp [List.filter_cons, hb, hx, filter_score_orderedInsert c x L]
      · by_cases hb : b.matchScore = c <;>
          simp [List.filter_cons, hb, hx, filter_score_orderedInsert c x L]

theorem filter_score_insertionSort (c : Nat) :
    ∀ L : List Job,
      (L.insertionSort byScoreDesc).filter (fun j => j.matchScore == c) =
        L.filter (fun j => j.matchScore == c)
  | [] => rfl
  | x :: L => by
    rw [List.insertionSort, filter_score_orderedInsert c x (L.insertionSort byScoreDesc)]
    by_cases hx : x.matchScore = c <;>
      simp [List.filter_cons, hx, filter_score_insertionSort c L]

/-- C10: `score_jobs` returns the scored records sorted by `match_score`
in descending order, and the sort is stable: for every score value, the
records carrying that score appear in the same order as in the scored
input sequence. -/
theorem score_jobs_sorted_and_stable :
    ∀ (jobs : List Job) (skills : List String),
      List.Sorted byScoreDesc (score_jobs jobs skills) ∧
      ∀ c : Nat,
        (score_jobs jobs skills).filter (fun j => j.matchScore == c) =
          (jobs.map (fun j =>
            {j with matchScore := (score_job j skills).1,
                    matchReason := (score_job j skills).2})).filter (fun j => j.matchScore == c) := by
  intro jobs skills
  constructor
  · exact List.sorted_insertionSort byScoreDesc _
  · intro c
    exact filter_score_insertionSort c _

theorem jobText_extend (j : Job) (kw : String) :
    jobText {j with description := j.description ++ " " ++ kw} =
      lowerL j.title.data ++ [' '] ++
        (lowerL j.description.data ++ [' '] ++ lowerL kw.data) ++ [' '] ++ lowerL j.company.data := by
  simp [jobText, lowerL, String.data_append, List.map_append]

/-- The base job of the C9 counterexample: its text `" data analyst"`
matches the profile skill and bonus keyword `"data analyst"` across the
description–company boundary. -/
def cexJob : Job := {description := "data", company := "analyst"}

/-- The skill profile of the C9 counterexample. -/
def cexSkills : List String := ["data analyst", "sql"]

/-- C9 counterexample: appending the profile skill `"sql"` (which then
matches) to the description of `cexJob` strictly lowers `match_score`
(from 20 to 5), because the insertion breaks the `"data analyst"` match
that previously spanned the description–company boundary — refuting the
claim that adding a matching skill keyword can never lower the score. -/
theorem score_job_monotone_cex :
    "sql" ∈ cexSkills ∧
    "sql".data <:+: jobText {cexJob with description := cexJob.description ++ " " ++ "sql"} ∧
    (score_job {cexJob with description := cexJob.description ++ " " ++ "sql"} cexSkills).1 <
      (score_job cexJob cexSkills).1 := by
  decide

/-- C9 amended: for a fixed profile, appending one more skill keyword to
a job's description can only raise or hold `match_score`, provided every
profile skill and bonus keyword occurring in the original combined text
occurs inside a single field (title, description or company) — i.e. no
existing match spans a field boundary. -/
theorem score_job_monotone_amended :
    ∀ (skills : List String) (job : Job) (kw : String),
      kw ∈ skills →
      (∀ s ∈ skills ++ (BONUS_RULES.map Prod.fst).flatten,
          s.data <:+: jobText job →
          s.data <:+: lowerL job.title.data ∨ s.data <:+: lowerL job.description.data ∨
            s.data <:+: lowerL job.company.data) →
      (score_job job skills).1 ≤
        (score_job {job with description := job.description ++ " " ++ kw} skills).1 := by
  intro skills job kw _hkw hnospan
  have hTnew : lowerL job.title.data <:+:
      jobText {job with description := job.description ++ " " ++ kw} := by
    rw [jobText_extend]
    exact ⟨[], [' '] ++ (lowerL job.description.data ++ [' '] ++ lowerL kw.data) ++ [' '] ++
      lowerL job.company.data, by simp⟩
  have hDnew : lowerL job.description.data <:+:
      jobText {job with description := job.description ++ " " ++ kw} := by
    rw [jobText_extend]
    exact ⟨lowerL job.title.data ++ [' '],
      [' '] ++ lowerL kw.data ++ [' '] ++ lowerL job.company.data, by simp⟩
  have hCnew : lowerL job.company.data <:+:
      jobText {job with description := job.description ++ " " ++ kw} := by
    rw [jobText_extend]
    exact ⟨lowerL job.title.data ++ [' '] ++
      (lowerL job.description.data ++ [' '] ++ lowerL kw.data) ++ [' '], [], by simp⟩
  have htransfer : ∀ s ∈ skills ++ (BONUS_RULES.map Prod.fst).flatten,
      s.data <:+: jobText job →
      s.data <:+: jobText {job with description := job.description ++ " " ++ kw} := by
    intro s hs hold
    rcases hnospan s hs hold with h | h | h
    · exact h.trans hTnew
    · exact h.trans hDnew
    · exact h.trans hCnew
  rw [score_job_eq, score_job_eq]
  refine min_le_min ?_ le_rfl
  refine Nat.add_le_add ?_ ?_
  · refine Nat.mul_le_mul_left 5 ?_
    refine List.countP_mono_left ?_
    intro s hs hp
    rw [decide_eq_true_eq] at hp ⊢
    exact htransfer s (List.mem_append_left _ hs) hp
  · refine List.sum_le_sum ?_
    intro r hr
    by_cases h : r.1.any (fun kw' => decide (kw'.data <:+: jobText job)) = true
    · obtain ⟨kw', hkw', hkwp⟩ := List.any_eq_true.mp h
      rw [decide_eq_true_eq] at hkwp
      have hmem : kw' ∈ (BONUS_RULES.map Prod.fst).flatten :=
        List.mem_flatten.mpr ⟨r.1, List.mem_map_of_mem Prod.fst hr, hkw'⟩
      have hnew : r.1.any (fun kw' => decide (kw'.data <:+:
          jobText {job with description := job.description ++ " " ++ kw})) = true :=
        List.any_eq_true.mpr ⟨kw', hkw',
          by rw [decide_eq_true_eq]; exact htransfer kw' (List.mem_append_right _ hmem) hkwp⟩
      rw [if_pos h, if_pos hnew]
    · rw [if_neg h]
      exact Nat.zero_le _

/-- Witness for the amended C9 at a job whose only match lies inside the
title field. -/
theorem score_job_monotone_witness :
    (score_job {title := "python"} ["python", "sql"]).1 ≤
      (score_job {({title := "python"} : Job) with
        description := ({title := "python"} : Job).description ++ " " ++ "sql"}
        ["python", "sql"]).1 :=
  score_job_monotone_amended ["python", "sql"] {title := "python"} "sql" (by decide) (by decide)

/-! ### Helper lemmas about `deduplicate_jobs` -/

theorem pass2Step_empty {j : Job} (m : List (String × Job)) (hj : keyOf j = "") :
    pass2Step m j = m := by
  simp only [pass2Step, if_pos hj]

theorem pass2Step_new {j : Job} {m : List (String × Job)} (hj : keyOf j ≠ "")
    (hf : m.find? (fun p => p.1 == keyOf j) = none) :
    pass2Step m j = m ++ [(keyOf j, j)] := by
  simp only [pass2Step, if_neg hj, hf]

theorem pass2Step_found_lt {j : Job} {m : List (String × Job)} {p : String × Job}
    (hj : keyOf j ≠ "") (hf : m.find? (fun q => q.1 == keyOf j) = some p)
    (hr : srcRank j.source < srcRank p.2.source) :
    pass2Step m j = replaceKey (keyOf j) j m := by
  simp only [pass2Step, if_neg hj, hf, if_pos hr]

theorem pass2Step_found_ge {j : Job} {m : List (String × Job)} {p : String × Job}
    (hj : keyOf j ≠ "") (hf : m.find? (fun q => q.1 == keyOf j) = some p)
    (hr : ¬ srcRank j.source < srcRank p.2.source) :
    pass2Step m j = m := by
  simp only [pass2Step, if_neg hj, hf, if_neg hr]

theorem replaceKey_cons (key : String) (j : Job) (q : String × Job) (m : List (String × Job)) :
    replaceKey key j (q :: m) = (if q.1 == key then (key, j) else q) :: replaceKey key j m := rfl

theorem find?_key_cons_neg (key : String) (q : String × Job) (m : List (String × Job))
    (h : ¬ (q.1 == key) = true) :
    (q :: m).find? (fun r => r.1 == key) = m.find? (fun r => r.1 == key) :=
  List.find?_cons_of_neg m h

theorem find?_key_cons_pos (key : String) (q : String × Job) (m : List (String × Job))
    (h : (q.1 == key) = true) :
    (q :: m).find? (fun r => r.1 == key) = some q :=
  List.find?_cons_of_pos m h

theorem replaceKey_map_fst (key : String) (j : Job) :
    ∀ m : List (String × Job), (replaceKey key j m).map Prod.fst = m.map Prod.fst
  | [] => rfl
  | q :: m => by
    rw [replaceKey_cons, List.map_cons, List.map_cons, replaceKey_map_fst key j m]
    congr 1
    by_cases hq : (q.1 == key) = true
    · rw [if_pos hq]
      exact (by simpa using hq : q.1 = key).symm
    · rw [if_neg hq]

theorem find?_replaceKey_self (key : String) (j : Job) :
    ∀ (m : List (String × Job)) (p : String × Job),
      m.find? (fun q => q.1 == key) = some p →
      (replaceKey key j m).find? (fun q => q.1 == key) = some (key, j)
  | [], p => by
    intro hf
    exact absurd hf (by simp)
  | q :: m, p => by
    intro hf
    by_cases hq : (q.1 == key) = true
    · rw [replaceKey_cons, if_pos hq]
      exact find?_key_cons_pos key (key, j) _ (by simp)
    · rw [replaceKey_cons, if_neg hq]
      rw [find?_key_cons_neg key q m hq] at hf
      rw [find?_key_cons_neg key q _ hq]
      exact find?_replaceKey_self key j m p hf

theorem find?_replaceKey_ne (key : String) (j : Job) {k : String} (hk : k ≠ key) :
    ∀ m : List (String × Job),
      (replaceKey key j m).find? (fun q => q.1 == k) = m.find? (fun q => q.1 == k)
  | [] => rfl
  | q :: m => by
    have hk' : key ≠ k := Ne.symm hk
    by_cases hq : (q.1 == key) = true
    · have hq' : q.1 = key := by simpa using hq
      rw [replaceKey_cons, if_pos hq]
      rw [find?_key_cons_neg k (key, j) _ (by simp [hk'])]
      rw [find?_key_cons_neg k q m (by simp [hq', hk'])]
      exact find?_replaceKey_ne key j hk m
    · rw [replaceKey_cons, if_neg hq]
      by_cases hqk : (q.1 == k) = true
      · rw [find?_key_cons_pos k q _ hqk, find?_key_cons_pos k q m hqk]
      · rw [find?_key_cons_neg k q _ hqk, find?_key_cons_neg k q m hqk]
        exact find?_replaceKey_ne key j hk m

/-- Invariant of the `title_map` association list: keys are unique, and
every stored record's own normalized title equals its key, which is
non-empty. -/
def wfMap (m : List (String × Job)) : Prop :=
  (m.map Prod.fst).Nodup ∧ ∀ p ∈ m, keyOf p.2 = p.1 ∧ p.1 ≠ ""

theorem wfMap_nil : wfMap [] := ⟨List.nodup_nil, by simp⟩

theorem wfMap_pass2Step {m : List (String × Job)} (j : Job) (hm : wfMap m) :
    wfMap (pass2Step m j) := by
  by_cases hj : keyOf j = ""
  · rwa [pass2Step_empty m hj]
  · cases hf : m.find? (fun p => p.1 == keyOf j) with
    | none =>
      rw [pass2Step_new hj hf]
      constructor
      · rw [List.map_append]
        rw [List.nodup_append]
        refine ⟨hm.1, by simp, ?_⟩
        intro k hk
        have : ∀ p ∈ m, ¬ (p.1 == keyOf j) = true := List.find?_eq_none.mp hf
        simp only [List.map_cons, List.map_nil, List.mem_singleton]
        intro hkey
        subst hkey
        obtain ⟨p, hp, hpk⟩ := List.mem_map.mp hk
        exact absurd (by simp [hpk] : (p.1 == keyOf j) = true) (this p hp)
      · intro p hp
        rcases List.mem_append.mp hp with h | h
        · exact hm.2 p h
        · simp only [List.mem_singleton] at h
          subst h
          exact ⟨rfl, hj⟩
    | some p =>
      by_cases hr : srcRank j.source < srcRank p.2.source
      · rw [pass2Step_found_lt hj hf hr]
        constructor
        · rw [replaceKey_map_fst]
          exact hm.1
        · intro q hq
          have hq2 : q ∈ m.map (fun q => if q.1 == keyOf j then (keyOf j, j) else q) := hq
          obtain ⟨q₀, hq₀, hq₀q⟩ := List.mem_map.mp hq2
          by_cases hqk : (q₀.1 == keyOf j) = true
          · rw [if_pos hqk] at hq₀q
            subst hq₀q
            exact ⟨rfl, hj⟩
          · rw [if_neg hqk] at hq₀q
            subst hq₀q
            exact hm.2 q₀ hq₀
      · rwa [pass2Step_found_ge hj hf hr]

theorem wfMap_foldl :
    ∀ (js : List Job) (m : List (String × Job)), wfMap m → wfMap (js.foldl pass2Step m)
  | [], _, hm => hm
  | j :: js, m, hm => by
    rw [List.foldl_cons]
    exact wfMap_foldl js (pass2Step m j) (wfMap_pass2Step j hm)

/-- The comparison Pass 2 performs when a key collides: the incoming
record wins only when its source rank is strictly smaller. -/
def better (b j : Job) : Job := if srcRank j.source < srcRank b.source then j else b

/-- The record a key's `title_map` slot holds after a sequence of
colliding records has been folded in (`none` = slot not created yet). -/
def foldBest : Option Job → List Job → Option Job
  | o, [] => o
  | none, j :: g => foldBest (some j) g
  | some b, j :: g => foldBest (some (better b j)) g

theorem foldBest_nil (o : Option Job) : foldBest o [] = o := by cases o <;> rfl

theorem foldBest_none_cons (j : Job) (g : List Job) :
    foldBest none (j :: g) = foldBest (some j) g := rfl

theorem foldBest_some_cons (b j : Job) (g : List Job) :
    foldBest (some b) (j :: g) = foldBest (some (better b j)) g := rfl

theorem foldBest_some : ∀ (g : List Job) (b : Job), foldBest (some b) g = some (g.foldl better b)
  | [], _ => rfl
  | j :: g, b => by rw [foldBest_some_cons, foldBest_some g (better b j), List.foldl_cons]

theorem find?_foldl_pass2Step (key : String) (hkey : key ≠ "") :
    ∀ (js : List Job) (m : List (String × Job)),
      ((js.foldl pass2Step m).find? (fun p => p.1 == key)).map Prod.snd =
        foldBest ((m.find? (fun p => p.1 == key)).map Prod.snd)
          (js.filter (fun j => keyOf j == key))
  | [], m => by rw [List.foldl_nil, List.filter_nil, foldBest_nil]
  | j :: js, m => by
    rw [List.foldl_cons]
    by_cases hj0 : keyOf j = ""
    · have hfilter : (j :: js).filter (fun j => keyOf j == key) =
          js.filter (fun j => keyOf j == key) := by
        rw [List.filter_cons]
        simp [hj0, Ne.symm hkey]
      rw [pass2Step_empty m hj0, hfilter]
      exact find?_foldl_pass2Step key hkey js m
    · by_cases hjk : keyOf j = key
      · have hfilter : (j :: js).filter (fun j => keyOf j == key) =
            j :: js.filter (fun j => keyOf j == key) := by
          rw [List.filter_cons]
          simp [hjk]
        rw [hfilter]
        cases hf : m.find? (fun p => p.1 == key) with
        | none =>
          have hstep : pass2Step m j = m ++ [(keyOf j, j)] :=
            pass2Step_new hj0 (by rw [hjk]; exact hf)
          have happ : (m ++ [(keyOf j, j)]).find? (fun p => p.1 == key) = some (keyOf j, j) := by
            rw [List.find?_append, hf]
            simp [hjk]
          rw [hstep, find?_foldl_pass2Step key hkey js _, happ]
          rfl
        | some p =>
          by_cases hr : srcRank j.source < srcRank p.2.source
          · have hstep : pass2Step m j = replaceKey (keyOf j) j m :=
              pass2Step_found_lt hj0 (by rw [hjk]; exact hf) hr
            have hrep : (replaceKey (keyOf j) j m).find? (fun p => p.1 == key) = some (key, j) := by
              rw [hjk]
              exact find?_replaceKey_self key j m p hf
            rw [hstep, find?_foldl_pass2Step key hkey js _, hrep]
            show foldBest (some j) _ = foldBest (some (better p.2 j)) _
            rw [show better p.2 j = j from if_pos hr]
          · have hstep : pass2Step m j = m :=
              pass2Step_found_ge hj0 (by rw [hjk]; exact hf) hr
            rw [hstep, find?_foldl_pass2Step key hkey js m, hf]
            show foldBest (some p.2) _ = foldBest (some (better p.2 j)) _
            rw [show better p.2 j = p.2 from if_neg hr]
      · have hfilter : (j :: js).filter (fun j => keyOf j == key) =
            js.filter (fun j => keyOf j == key) := by
          rw [List.filter_cons]
          simp [hjk]
        have hpres : (pass2Step m j).find? (fun p => p.1 == key) =
            m.find? (fun p => p.1 == key) := by
          cases hf : m.find? (fun p => p.1 == keyOf j) with
          | none =>
            rw [pass2Step_new hj0 hf, List.find?_append]
            have hsingle : ([(keyOf j, j)] : List (String × Job)).find? (fun p => p.1 == key) =
                none := by simp [hjk]
            rw [hsingle]
            exact Option.or_none
          | some p =>
            by_cases hr : srcRank j.source < srcRank p.2.source
            · rw [pass2Step_found_lt hj0 hf hr]
              exact find?_replaceKey_ne (keyOf j) j (Ne.symm hjk) m
            · rw [pass2Step_found_ge hj0 hf hr]
        rw [hfilter, find?_foldl_pass2Step key hkey js _, hpres]

theorem filter_map_snd (key : String) :
    ∀ m : List (String × Job), wfMap m →
      (m.map Prod.snd).filter (fun x => keyOf x == key) =
        ((m.find? (fun p => p.1 == key)).map Prod.snd).toList
  | [], _ => rfl
  | p :: m, hwf => by
    have hp := hwf.2 p (List.mem_cons_self p m)
    have hrest : wfMap m := ⟨(List.nodup_cons.mp hwf.1).2, fun q hq => hwf.2 q (List.mem_cons_of_mem p hq)⟩
    by_cases hpk : (p.1 == key) = true
    · have hpk' : p.1 = key := by simpa using hpk
      rw [List.map_cons, List.filter_cons, find?_key_cons_pos key p m hpk]
      have hhead : (keyOf p.2 == key) = true := by simp [hp.1, hpk']
      rw [if_pos hhead]
      have hnone : (m.map Prod.snd).filter (fun x => keyOf x == key) = [] := by
        rw [List.filter_eq_nil_iff]
        intro x hx
        obtain ⟨q, hq, hqx⟩ := List.mem_map.mp hx
        have hq1 : keyOf x = q.1 := hqx ▸ (hrest.2 q hq).1
        have : q.1 ≠ p.1 := by
          intro hcontra
          exact (List.nodup_cons.mp hwf.1).1 (hcontra ▸ List.mem_map_of_mem Prod.fst hq)
        simp [hq1, hpk' ▸ this]
      rw [hnone]
      rfl
    · rw [List.map_cons, List.filter_cons, find?_key_cons_neg key p m hpk]
      have hhead : ¬ (keyOf p.2 == key) = true := by
        rw [hp.1]
        exact hpk
      rw [if_neg hhead]
      exact filter_map_snd key m hrest

theorem foldl_better_rank_le :
    ∀ (g : List Job) (b : Job),
      srcRank (g.foldl better b).source ≤ srcRank b.source
  | [], _ => le_rfl
  | j :: g, b => by
    rw [List.foldl_cons]
    refine le_trans (foldl_better_rank_le g (better b j)) ?_
    by_cases hr : srcRank j.source < srcRank b.source
    · rw [better, if_pos hr]
      exact le_of_lt hr
    · rw [better, if_neg hr]

theorem foldl_better_decomp :
    ∀ (g : List Job) (b : Job),
      ∃ pre post, b :: g = pre ++ (g.foldl better b) :: post ∧
        (∀ x ∈ pre, srcRank (g.foldl better b).source < srcRank x.source) ∧
        (∀ x ∈ post, srcRank (g.foldl better b).source ≤ srcRank x.source)
  | [], b => ⟨[], [], rfl, by simp, by simp⟩
  | j :: g, b => by
    rw [List.foldl_cons]
    obtain ⟨pre, post, heq, hpre, hpost⟩ := foldl_better_decomp g (better b j)
    by_cases hr : srcRank j.source < srcRank b.source
    · rw [better, if_pos hr] at heq hpre hpost ⊢
      refine ⟨b :: pre, post, by rw [List.cons_append, ← heq], ?_, hpost⟩
      intro x hx
      rcases List.mem_cons.mp hx with rfl | hx
      · calc srcRank (g.foldl better j).source ≤ srcRank j.source := foldl_better_rank_le g j
          _ < srcRank x.source := hr
      · exact hpre x hx
    · rw [better, if_neg hr] at heq hpre hpost ⊢
      cases pre with
      | nil =>
        simp only [List.nil_append] at heq
        have hb : g.foldl better b = b := (List.cons.injEq _ _ _ _).mp heq |>.1.symm
        have hpost' : post = g := (List.cons.injEq _ _ _ _).mp heq |>.2.symm
        refine ⟨[], j :: g, by rw [hb, List.nil_append], by simp, ?_⟩
        intro x hx
        rcases List.mem_cons.mp hx with rfl | hx
        · rw [hb]
          exact le_of_not_lt hr
        · rw [← hpost'] at hx
          exact hpost x hx
      | cons q pre' =>
        have hq : q = b := ((List.cons.injEq _ _ _ _).mp (by simpa using heq)).1.symm
        have hrest : g = pre' ++ (g.foldl better b) :: post :=
          ((List.cons.injEq _ _ _ _).mp (by simpa using heq)).2
        refine ⟨b :: j :: pre', post, ?_, ?_, hpost⟩
        · rw [List.cons_append, List.cons_append, ← hrest]
        · intro x hx
          have hb : srcRank (g.foldl better b).source < srcRank b.source := by
            have := hpre q (by simp)
            rwa [hq] at this
          rcases List.mem_cons.mp hx with rfl | hx
          · exact hb
          · rcases List.mem_cons.mp hx with rfl | hx
            · exact lt_of_lt_of_le hb (le_of_not_lt hr)
            · exact hpre x (List.mem_cons_of_mem q hx)

/-- First record of the spec's dedup example. -/
def exIndeed : Job := {url := "a", title := "Data Scientist", source := "indeed"}

/-- Second record of the spec's dedup example. -/
def exLinkedin : Job := {url := "b", title := "data scientist!", source := "linkedin"}

/-- C2 counterexample: two Pass-1 survivors (distinct URLs) whose titles
`"!"` and `"?"` normalize to the same key (the empty string); the claim
as stated says exactly one of them must be kept, but `deduplicate_jobs`
keeps neither — empty-key records are dropped from Pass 2 entirely. -/
theorem dedup_empty_key_cex :
    keyOf {url := "a", title := "!"} = keyOf {url := "b", title := "?"} ∧
    pass1 [({url := "a", title := "!"} : Job), {url := "b", title := "?"}] =
      [({url := "a", title := "!"} : Job), {url := "b", title := "?"}] ∧
    deduplicate_jobs [({url := "a", title := "!"} : Job), {url := "b", title := "?"}] = [] := by
  decide

/-- C2 amended: among Pass-1 survivors whose titles normalize to the same
NON-EMPTY key, exactly one record is kept: the first-seen record of
minimal source rank (every earlier group member has strictly larger rank,
every later one has at least its rank); and on the spec's example both
records survive Pass 1 and only the linkedin one is returned. -/
theorem dedup_keeps_best_per_title :
    (∀ (jobs : List Job) (key : String), key ≠ "" →
      ∀ g, (pass1 jobs).filter (fun j => keyOf j == key) = g → g ≠ [] →
      ∃ b pre post,
        (deduplicate_jobs jobs).filter (fun j => keyOf j == key) = [b] ∧
        g = pre ++ b :: post ∧
        (∀ x ∈ pre, srcRank b.source < srcRank x.source) ∧
        (∀ x ∈ post, srcRank b.source ≤ srcRank x.source)) ∧
    pass1 [exIndeed, exLinkedin] = [exIndeed, exLinkedin] ∧
    deduplicate_jobs [exIndeed, exLinkedin] = [exLinkedin] := by
  refine ⟨?_, by decide, by decide⟩
  intro jobs key hkey g hg hgne
  have hwf : wfMap ((pass1 jobs).foldl pass2Step []) := wfMap_foldl (pass1 jobs) [] wfMap_nil
  have hchar := find?_foldl_pass2Step key hkey (pass1 jobs) []
  rw [hg] at hchar
  cases g with
  | nil => exact absurd rfl hgne
  | cons j g' =>
    have hfb : foldBest ((([] : List (String × Job)).find? (fun p => p.1 == key)).map Prod.snd)
        (j :: g') = some (g'.foldl better j) := by
      show foldBest none (j :: g') = _
      rw [foldBest_none_cons, foldBest_some]
    rw [hfb] at hchar
    obtain ⟨pre, post, heq, hpre, hpost⟩ := foldl_better_decomp g' j
    refine ⟨g'.foldl better j, pre, post, ?_, heq, hpre, hpost⟩
    rw [show deduplicate_jobs jobs = ((pass1 jobs).foldl pass2Step []).map Prod.snd from rfl]
    rw [filter_map_snd key _ hwf, hchar]
    rfl

/-- Witness for the amended C2 at the spec's example. -/
theorem dedup_keeps_best_witness :
    ∃ b pre post,
      (deduplicate_jobs [exIndeed, exLinkedin]).filter
        (fun j => keyOf j == "data scientist") = [b] ∧
      [exIndeed, exLinkedin] = pre ++ b :: post ∧
      (∀ x ∈ pre, srcRank b.source < srcRank x.source) ∧
      (∀ x ∈ post, srcRank b.source ≤ srcRank x.source) :=
  dedup_keeps_best_per_title.1 [exIndeed, exLinkedin] "data scientist" (by decide)
    [exIndeed, exLinkedin] (by decide) (by decide)

/-- First occurrences of the non-empty normalized-title keys of a job
sequence, in order (`acc` holds the keys already emitted). -/
def firstKeysGo (acc : List String) : List Job → List String
  | [] => []
  | j :: rest =>
    if keyOf j = "" ∨ keyOf j ∈ acc then firstKeysGo acc rest
    else keyOf j :: firstKeysGo (keyOf j :: acc) rest

/-- First-occurrence order of the non-empty normalized-title keys. -/
def firstKeys (js : List Job) : List String := firstKeysGo [] js

theorem firstKeysGo_congr :
    ∀ (js : List Job) (acc acc' : List String), (∀ k : String, k ∈ acc ↔ k ∈ acc') →
      firstKeysGo acc js = firstKeysGo acc' js
  | [], _, _, _ => rfl
  | j :: js, acc, acc', h => by
    by_cases hc : keyOf j = "" ∨ keyOf j ∈ acc
    · have hc' : keyOf j = "" ∨ keyOf j ∈ acc' := by
        rcases hc with hc | hc
        · exact Or.inl hc
        · exact Or.inr ((h _).mp hc)
      rw [firstKeysGo, if_pos hc, firstKeysGo, if_pos hc']
      exact firstKeysGo_congr js acc acc' h
    · have hc' : ¬ (keyOf j = "" ∨ keyOf j ∈ acc') := by
        intro hcontra
        rcases hcontra with hx | hx
        · exact hc (Or.inl hx)
        · exact hc (Or.inr ((h _).mpr hx))
      rw [firstKeysGo, if_neg hc, firstKeysGo, if_neg hc']
      congr 1
      refine firstKeysGo_congr js _ _ ?_
      intro k
      simp [h k]

theorem map_fst_foldl_pass2Step :
    ∀ (js : List Job) (m : List (String × Job)),
      (js.foldl pass2Step m).map Prod.fst = m.map Prod.fst ++ firstKeysGo (m.map Prod.fst) js
  | [], m => by rw [List.foldl_nil, firstKeysGo, List.append_nil]
  | j :: js, m => by
    rw [List.foldl_cons, firstKeysGo]
    by_cases hj0 : keyOf j = ""
    · rw [pass2Step_empty m hj0, if_pos (Or.inl hj0)]
      exact map_fst_foldl_pass2Step js m
    · cases hf : m.find? (fun p => p.1 == keyOf j) with
      | none =>
        have hnotin : keyOf j ∉ m.map Prod.fst := by
          intro hcontra
          obtain ⟨p, hp, hpk⟩ := List.mem_map.mp hcontra
          exact absurd (by simp [hpk] : (p.1 == keyOf j) = true) (List.find?_eq_none.mp hf p hp)
        rw [pass2Step_new hj0 hf, if_neg (by simp [hj0, hnotin])]
        rw [map_fst_foldl_pass2Step js (m ++ [(keyOf j, j)])]
        rw [List.map_append]
        have hcongr : firstKeysGo (m.map Prod.fst ++ [(keyOf j, j)].map Prod.fst) js =
            firstKeysGo (keyOf j :: m.map Prod.fst) js := by
          refine firstKeysGo_congr js _ _ ?_
          intro k
          simp [or_comm]
        rw [hcongr]
        simp
      | some p =>
        have hin : keyOf j ∈ m.map Prod.fst := by
          have hmem := List.mem_of_find?_eq_some hf
          have hpk : p.1 = keyOf j := by simpa using List.find?_some hf
          exact hpk ▸ List.mem_map_of_mem Prod.fst hmem
        rw [if_pos (Or.inr hin)]
        by_cases hr : srcRank j.source < srcRank p.2.source
        · rw [pass2Step_found_lt hj0 hf hr, map_fst_foldl_pass2Step js _, replaceKey_map_fst]
        · rw [pass2Step_found_ge hj0 hf hr, map_fst_foldl_pass2Step js m]

/-- C4 counterexample: with input `[A(title x, indeed), B(title y),
C(title x, linkedin)]` all three survive Pass 1, the survivors are `C`
and `B`, and `B` is first-seen before `C` in the Pass-1 output — yet the
returned order is `[C, B]`, not the survivors' own first-seen order
`[B, C]`: Pass 2 places the selected record at the position where its
title key first appeared. -/
theorem dedup_order_cex :
    pass1 [({url := "a", title := "x", source := "indeed"} : Job),
           {url := "b", title := "y", source := "indeed"},
           {url := "c", title := "x", source := "linkedin"}] =
      [({url := "a", title := "x", source := "indeed"} : Job),
       {url := "b", title := "y", source := "indeed"},
       {url := "c", title := "x", source := "linkedin"}] ∧
    deduplicate_jobs [({url := "a", title := "x", source := "indeed"} : Job),
                      {url := "b", title := "y", source := "indeed"},
                      {url := "c", title := "x", source := "linkedin"}] =
      [({url := "c", title := "x", source := "linkedin"} : Job),
       {url := "b", title := "y", source := "indeed"}] ∧
    deduplicate_jobs [({url := "a", title := "x", source := "indeed"} : Job),
                      {url := "b", title := "y", source := "indeed"},
                      {url := "c", title := "x", source := "linkedin"}] ≠
      [({url := "b", title := "y", source := "indeed"} : Job),
       {url := "c", title := "x", source := "linkedin"}] := by
  refine ⟨by decide, by decide, by decide⟩

/-- C4 amended: the output of `deduplicate_jobs` is ordered by the first
occurrence, in the Pass-1 output, of each surviving record's normalized
title key — the selected record of a title group occupies the position
at which its group's key was first seen, which need not be that record's
own first-seen position. -/
theorem dedup_order_first_key_occurrence :
    ∀ jobs : List Job, (deduplicate_jobs jobs).map keyOf = firstKeys (pass1 jobs) := by
  intro jobs
  have hwf : wfMap ((pass1 jobs).foldl pass2Step []) := wfMap_foldl (pass1 jobs) [] wfMap_nil
  rw [show deduplicate_jobs jobs = ((pass1 jobs).foldl pass2Step []).map Prod.snd from rfl]
  rw [List.map_map]
  have hcg : ((pass1 jobs).foldl pass2Step []).map (keyOf ∘ Prod.snd) =
      ((pass1 jobs).foldl pass2Step []).map Prod.fst :=
    List.map_congr_left (fun p hp => (hwf.2 p hp).1)
  rw [hcg, map_fst_foldl_pass2Step (pass1 jobs) []]
  rfl

theorem pass1Go_subset :
    ∀ (js : List Job) (seen : List String) (j : Job), j ∈ pass1Go seen js → j ∈ js
  | [], _, j => by
    intro hj
    exact absurd hj (List.not_mem_nil j)
  | j₀ :: js, seen, j => by
    rw [pass1Go]
    by_cases h : pyStrip j₀.url ∈ seen
    · rw [if_pos h]
      intro hj
      exact List.mem_cons_of_mem j₀ (pass1Go_subset js seen j hj)
    · rw [if_neg h]
      intro hj
      rcases List.mem_cons.mp hj with rfl | hj
      · exact List.mem_cons_self _ _
      · exact List.mem_cons_of_mem j₀ (pass1Go_subset js _ j hj)

theorem pass1Go_urls_nodup :
    ∀ (js : List Job) (seen : List String),
      ((pass1Go seen js).map (fun j => pyStrip j.url)).Nodup ∧
      ∀ u ∈ (pass1Go seen js).map (fun j => pyStrip j.url), u ∉ seen
  | [], seen => ⟨List.nodup_nil, by simp [pass1Go]⟩
  | j :: js, seen => by
    rw [pass1Go]
    by_cases h : pyStrip j.url ∈ seen
    · rw [if_pos h]
      exact pass1Go_urls_nodup js seen
    · rw [if_neg h]
      obtain ⟨hnd, hnotin⟩ := pass1Go_urls_nodup js (pyStrip j.url :: seen)
      rw [List.map_cons]
      constructor
      · rw [List.nodup_cons]
        refine ⟨?_, hnd⟩
        intro hcontra
        exact (hnotin _ hcontra) (List.mem_cons_self _ _)
      · intro u hu
        rcases List.mem_cons.mp hu with rfl | hu
        · exact h
        · exact fun hc => (hnotin u hu) (List.mem_cons_of_mem _ hc)

theorem pass1Go_fix :
    ∀ (js : List Job) (seen : List String),
      (js.map (fun j => pyStrip j.url)).Nodup →
      (∀ j ∈ js, pyStrip j.url ∉ seen) → pass1Go seen js = js
  | [], _, _, _ => rfl
  | j :: js, seen, hnd, hdisj => by
    rw [pass1Go, if_neg (hdisj j (List.mem_cons_self _ _))]
    congr 1
    refine pass1Go_fix js _ (List.nodup_cons.mp (by simpa using hnd)).2 ?_
    intro x hx
    intro hcontra
    rcases List.mem_cons.mp hcontra with hc | hc
    · have : pyStrip j.url ∉ js.map (fun j => pyStrip j.url) :=
        (List.nodup_cons.mp (by simpa using hnd)).1
      exact this (hc ▸ List.mem_map_of_mem (fun j => pyStrip j.url) hx)
    · exact (hdisj x (List.mem_cons_of_mem _ hx)) hc

theorem pass2Step_values {m : List (String × Job)} {S : List Job} {j : Job}
    (hm : ∀ p ∈ m, p.2 ∈ S) (hj : j ∈ S) : ∀ p ∈ pass2Step m j, p.2 ∈ S := by
  by_cases hj0 : keyOf j = ""
  · rw [pass2Step_empty m hj0]
    exact hm
  · cases hf : m.find? (fun p => p.1 == keyOf j) with
    | none =>
      rw [pass2Step_new hj0 hf]
      intro p hp
      rcases List.mem_append.mp hp with h | h
      · exact hm p h
      · simp only [List.mem_singleton] at h
        subst h
        exact hj
    | some q =>
      by_cases hr : srcRank j.source < srcRank q.2.source
      · rw [pass2Step_found_lt hj0 hf hr]
        intro p hp
        have hp2 : p ∈ m.map (fun q => if q.1 == keyOf j then (keyOf j, j) else q) := hp
        obtain ⟨q₀, hq₀, hq₀p⟩ := List.mem_map.mp hp2
        by_cases hqk : (q₀.1 == keyOf j) = true
        · rw [if_pos hqk] at hq₀p
          subst hq₀p
          exact hj
        · rw [if_neg hqk] at hq₀p
          subst hq₀p
          exact hm q₀ hq₀
      · rw [pass2Step_found_ge hj0 hf hr]
        exact hm

theorem foldl_pass2Step_values :
    ∀ (js : List Job) (m : List (String × Job)) (S : List Job),
      (∀ p ∈ m, p.2 ∈ S) → (∀ j ∈ js, j ∈ S) →
      ∀ p ∈ js.foldl pass2Step m, p.2 ∈ S
  | [], _, _, hm, _ => hm
  | j :: js, m, S, hm, hjs => by
    rw [List.foldl_cons]
    exact foldl_pass2Step_values js (pass2Step m j) S
      (pass2Step_values hm (hjs j (List.mem_cons_self _ _)))
      (fun x hx => hjs x (List.mem_cons_of_mem _ hx))

theorem inj_of_map_nodup {α β : Type} (f : α → β) :
    ∀ l : List α, (l.map f).Nodup → ∀ a ∈ l, ∀ b ∈ l, f a = f b → a = b
  | [], _, a, ha, _, _, _ => absurd ha (List.not_mem_nil a)
  | x :: t, hnd, a, ha, b, hb, hab => by
    rw [List.map_cons, List.nodup_cons] at hnd
    rcases List.mem_cons.mp ha with rfl | ha'
    · rcases List.mem_cons.mp hb with rfl | hb'
      · rfl
      · exact absurd (show f a ∈ List.map f t by rw [hab]; exact List.mem_map_of_mem f hb') hnd.1
    · rcases List.mem_cons.mp hb with rfl | hb'
      · exact absurd (show f b ∈ List.map f t by rw [← hab]; exact List.mem_map_of_mem f ha') hnd.1
      · exact inj_of_map_nodup f t hnd.2 a ha' b hb' hab

theorem foldl_pass2Step_fresh :
    ∀ (js : List Job) (m : List (String × Job)),
      (∀ j ∈ js, keyOf j ≠ "") → (js.map keyOf).Nodup →
      (∀ j ∈ js, keyOf j ∉ m.map Prod.fst) →
      js.foldl pass2Step m = m ++ js.map (fun j => (keyOf j, j))
  | [], m, _, _, _ => by simp
  | j :: js, m, hne, hnd, hdisj => by
    rw [List.foldl_cons]
    have hj0 : keyOf j ≠ "" := hne j (List.mem_cons_self _ _)
    have hf : m.find? (fun p => p.1 == keyOf j) = none := by
      rw [List.find?_eq_none]
      intro p hp
      simp only [beq_iff_eq]
      intro hcontra
      exact (hdisj j (List.mem_cons_self _ _)) (hcontra ▸ List.mem_map_of_mem Prod.fst hp)
    rw [pass2Step_new hj0 hf]
    rw [foldl_pass2Step_fresh js (m ++ [(keyOf j, j)])
      (fun x hx => hne x (List.mem_cons_of_mem _ hx))
      (List.nodup_cons.mp (by simpa using hnd)).2 ?_]
    · simp
    · intro x hx
      rw [List.map_append, List.mem_append]
      intro hcontra
      rcases hcontra with hc | hc
      · exact (hdisj x (List.mem_cons_of_mem _ hx)) hc
      · simp only [List.map_cons, List.map_nil, List.mem_singleton] at hc
        exact (List.nodup_cons.mp (by simpa using hnd)).1 (hc ▸ List.mem_map_of_mem keyOf hx)

/-- C8: `deduplicate_jobs` is idempotent — running it on its own output
returns that output unchanged (even as a list, hence certainly as a set:
no further records are removed). -/
theorem deduplicate_jobs_idempotent :
    ∀ jobs : List Job, deduplicate_jobs (deduplicate_jobs jobs) = deduplicate_jobs jobs := by
  intro jobs
  have hwf : wfMap ((pass1 jobs).foldl pass2Step []) := wfMap_foldl (pass1 jobs) [] wfMap_nil
  set M := (pass1 jobs).foldl pass2Step [] with hM
  have hkeys : (M.map Prod.snd).map keyOf = M.map Prod.fst := by
    rw [List.map_map]
    exact List.map_congr_left (fun p hp => (hwf.2 p hp).1)
  have hkeysnd : ((M.map Prod.snd).map keyOf).Nodup := by
    rw [hkeys]
    exact hwf.1
  have hne : ∀ j ∈ M.map Prod.snd, keyOf j ≠ "" := by
    intro j hj
    obtain ⟨p, hp, hpj⟩ := List.mem_map.mp hj
    exact hpj ▸ ((hwf.2 p hp).1 ▸ (hwf.2 p hp).2)
  have hmem : ∀ j ∈ M.map Prod.snd, j ∈ pass1 jobs := by
    intro j hj
    obtain ⟨p, hp, hpj⟩ := List.mem_map.mp hj
    exact hpj ▸ foldl_pass2Step_values (pass1 jobs) [] (pass1 jobs)
      (by simp) (fun x hx => hx) p hp
  have hnd : (M.map Prod.snd).Nodup := List.Nodup.of_map keyOf hkeysnd
  have hurlsP1 : ((pass1 jobs).map (fun j => pyStrip j.url)).Nodup :=
    (pass1Go_urls_nodup jobs []).1
  have hurls : ((M.map Prod.snd).map (fun j => pyStrip j.url)).Nodup := by
    refine List.Nodup.map_on ?_ hnd
    intro x hx y hy hxy
    exact inj_of_map_nodup (fun j => pyStrip j.url) (pass1 jobs) hurlsP1
      x (hmem x hx) y (hmem y hy) hxy
  have hp1fix : pass1 (M.map Prod.snd) = M.map Prod.snd :=
    pass1Go_fix (M.map Prod.snd) [] hurls (by simp)
  have hfold : (M.map Prod.snd).foldl pass2Step [] =
      [] ++ (M.map Prod.snd).map (fun j => (keyOf j, j)) :=
    foldl_pass2Step_fresh (M.map Prod.snd) [] hne hkeysnd (by simp)
  show ((pass1 (M.map Prod.snd)).foldl pass2Step []).map Prod.snd = M.map Prod.snd
  rw [hp1fix, hfold, List.nil_append, List.map_map]
  exact List.map_congr_left (fun j _ => rfl) |>.trans (List.map_id _)

/-! ### Helper lemmas about `generate_job_id` -/

theorem toBytesLE_length (n x : Nat) : (toBytesLE n x).length = n := by
  simp [toBytesLE]

theorem md5Bytes_length (msg : List Nat) : (md5Bytes msg).length = 16 := by
  simp [md5Bytes, toBytesLE_length]

theorem md5HexChars_length (msg : List Nat) : (md5HexChars msg).length = 32 := by
  rw [md5HexChars, List.length_flatMap]
  have hsum : ∀ l : List Nat,
      (l.map (List.length ∘ (fun b => [hexChar (b / 16), hexChar (b % 16)]))).sum = 2 * l.length := by
    intro l
    induction l with
    | nil => rfl
    | cons a t ih =>
      rw [List.map_cons, List.sum_cons, ih]
      simp
      omega
  rw [hsum, md5Bytes_length]

theorem md5Bytes_lt (msg : List Nat) : ∀ b ∈ md5Bytes msg, b < 256 := by
  have h4 : ∀ (y : Nat), ∀ b ∈ toBytesLE 4 y, b < 256 := by
    intro y b hb
    simp only [toBytesLE, List.mem_map] at hb
    obtain ⟨i, _, rfl⟩ := hb
    exact Nat.mod_lt _ (by decide)
  intro b hb
  simp only [md5Bytes, List.mem_append] at hb
  rcases hb with ((hb | hb) | hb) | hb <;> exact h4 _ b hb

theorem hexChar_is_hex : ∀ n < 16, ('0' ≤ hexChar n ∧ hexChar n ≤ '9') ∨
    ('a' ≤ hexChar n ∧ hexChar n ≤ 'f') := by decide

theorem md5HexChars_hex (msg : List Nat) :
    ∀ c ∈ md5HexChars msg, ('0' ≤ c ∧ c ≤ '9') ∨ ('a' ≤ c ∧ c ≤ 'f') := by
  intro c hc
  rw [md5HexChars] at hc
  obtain ⟨b, hb, hcb⟩ := List.mem_flatMap.mp hc
  have hblt := md5Bytes_lt msg b hb
  rcases List.mem_cons.mp hcb with rfl | hcb2
  · exact hexChar_is_hex (b / 16) ((Nat.div_lt_iff_lt_mul (by decide)).mpr hblt)
  · rcases List.mem_cons.mp hcb2 with rfl | hcb3
    · exact hexChar_is_hex (b % 16) (Nat.mod_lt b (by decide))
    · exact absurd hcb3 (List.not_mem_nil c)

theorem generate_job_id_ext {j₁ j₂ : Job} (hu : j₁.url = j₂.url) (ht : j₁.title = j₂.title)
    (hc : j₁.company = j₂.company) (hl : j₁.location = j₂.location) :
    generate_job_id j₁ = generate_job_id j₂ := by
  simp only [generate_job_id, hu, ht, hc, hl]

/-- C1: `generate_job_id` hashes the whitespace-trimmed URL when that is
non-empty and the `title-company-location` triple otherwise, truncating
the md5 hex digest to 12 characters; the output always has length 12 and
consists of hex digits, and two records agreeing on url, title, company
and location (in particular, differing only in `description`) get the
same id — the function is a pure function of those four fields. -/
theorem generate_job_id_spec :
    ∀ job : Job,
      (pyStrip job.url ≠ "" →
        generate_job_id job = ⟨(md5HexChars (utf8Encode (pyStrip job.url))).take 12⟩) ∧
      (pyStrip job.url = "" →
        generate_job_id job =
          ⟨(md5HexChars (utf8Encode (job.title ++ "-" ++ job.company ++ "-" ++ job.location))).take 12⟩) ∧
      (generate_job_id job).length = 12 ∧
      (∀ c ∈ (generate_job_id job).data, ('0' ≤ c ∧ c ≤ '9') ∨ ('a' ≤ c ∧ c ≤ 'f')) ∧
      (∀ job' : Job, job.url = job'.url → job.title = job'.title → job.company = job'.company →
        job.location = job'.location → generate_job_id job = generate_job_id job') := by
  intro job
  refine ⟨?_, ?_, ?_, ?_, ?_⟩
  · intro h
    simp only [generate_job_id, if_pos h]
  · intro h
    simp only [generate_job_id, h]
    simp
  · have h12 : ∀ msg : List Nat, ((md5HexChars msg).take 12).length = 12 := by
      intro msg
      rw [List.length_take, md5HexChars_length]
      decide
    by_cases h : pyStrip job.url ≠ ""
    · rw [(by simp only [generate_job_id, if_pos h] :
        generate_job_id job = ⟨(md5HexChars (utf8Encode (pyStrip job.url))).take 12⟩)]
      exact h12 _
    · rw [(by simp only [generate_job_id, if_neg h] :
        generate_job_id job =
          ⟨(md5HexChars (utf8Encode (job.title ++ "-" ++ job.company ++ "-" ++ job.location))).take 12⟩)]
      exact h12 _
  · have hdata : ∀ msg : List Nat, ∀ c ∈ (md5HexChars msg).take 12,
        ('0' ≤ c ∧ c ≤ '9') ∨ ('a' ≤ c ∧ c ≤ 'f') := by
      intro msg c hc
      exact md5HexChars_hex msg c (List.take_subset 12 _ hc)
    by_cases h : pyStrip job.url ≠ ""
    · rw [(by simp only [generate_job_id, if_pos h] :
        generate_job_id job = ⟨(md5HexChars (utf8Encode (pyStrip job.url))).take 12⟩)]
      exact hdata _
    · rw [(by simp only [generate_job_id, if_neg h] :
        generate_job_id job =
          ⟨(md5HexChars (utf8Encode (job.title ++ "-" ++ job.company ++ "-" ++ job.location))).take 12⟩)]
      exact hdata _
  · intro job' hu ht hc hl
    exact generate_job_id_ext hu ht hc hl

/-- Witness for C1: a record with a padded URL takes the URL-hash branch;
its id has length 12, and changing only the description keeps the id. -/
theorem generate_job_id_witness :
    pyStrip ({url := "  http://x  ", description := "d1"} : Job).url ≠ "" ∧
    generate_job_id {url := "  http://x  ", description := "d1"} =
      ⟨(md5HexChars (utf8Encode (pyStrip ({url := "  http://x  ", description := "d1"} : Job).url))).take 12⟩ ∧
    (generate_job_id {url := "  http://x  ", description := "d1"}).length = 12 ∧
    generate_job_id {url := "  http://x  ", description := "d1"} =
      generate_job_id {url := "  http://x  ", description := "d2"} :=
  ⟨by decide,
   (generate_job_id_spec _).1 (by decide),
   (generate_job_id_spec _).2.2.1,
   (generate_job_id_spec _).2.2.2.2 _ rfl rfl rfl rfl⟩

/-- C5 counterexample: a tracker file whose whole content is the single
link `[Apply](x)` — the link construct is present (the scanner finds it),
yet `load_seen_jobs` recovers nothing, because the line contains no `|`
and is skipped before link extraction; this refutes the claim that every
link anywhere in the content contributes an identity regardless of the
rest of its line. -/
theorem load_seen_jobs_cex :
    findLinks ("[Apply](x)".data) = ["x".data] ∧
    load_seen_jobs (some ["[Apply](x)"]) = [] :=
  ⟨by decide, by decide⟩

/-- C5 amended: `load_seen_jobs` recovers the truncated URL-hash of every
`[Apply](URL)` / `[Link](URL)` construct that lies inside a stripped
`|`-separated cell of a line that contains a `|` and does not start with
`|--`; links on other lines are ignored. -/
theorem load_seen_jobs_links_in_cells :
    ∀ (files : List String) (content line part : String) (url : List Char),
      content ∈ files → line ∈ pySplit "\n" content →
      '|' ∈ line.data → ¬ "|--".data.isPrefixOf line.data →
      part ∈ (pySplit "|" line).map pyStrip → url ∈ findLinks part.data →
      (⟨(md5HexChars (utf8Encode ⟨url⟩)).take 12⟩ : String) ∈ load_seen_jobs (some files) := by
  intro files content line part url hc hl hpipe hdash hp hu
  show _ ∈ files.flatMap contentSeen
  refine List.mem_flatMap.mpr ⟨content, hc, ?_⟩
  show _ ∈ (pySplit "\n" content).flatMap lineSeen
  refine List.mem_flatMap.mpr ⟨line, hl, ?_⟩
  show _ ∈ lineSeen line
  rw [lineSeen, if_pos ⟨hpipe, hdash⟩]
  refine List.mem_flatMap.mpr ⟨part, hp, ?_⟩
  exact List.mem_map_of_mem _ hu

/-- Witness for the amended C5: a one-line tracker table whose cell holds
`[Apply](a)` contributes the hash of `"a"` to the seen set. -/
theorem load_seen_jobs_links_witness :
    (⟨(md5HexChars (utf8Encode ⟨"a".data⟩)).take 12⟩ : String) ∈
      load_seen_jobs (some ["| [Apply](a) |"]) :=
  load_seen_jobs_links_in_cells ["| [Apply](a) |"] "| [Apply](a) |" "| [Apply](a) |"
    "[Apply](a)" "a".data
    (by decide) (by decide) (by decide) (by decide) (by decide) (by decide)

/-- C7: when the ledger store is a missing directory, an empty file set,
or yields an empty seen set, `filter_seen_jobs` returns its input
unchanged — same records, same length, and (being a total function)
never an error. -/
theorem filter_seen_jobs_noop :
    ∀ (jobs : List Job) (vault : Option (List String)),
      (vault = none ∨ vault = some [] ∨ load_seen_jobs vault = []) →
      filter_seen_jobs jobs vault = jobs ∧
      (filter_seen_jobs jobs vault).length = jobs.length := by
  intro jobs vault hv
  have hseen : load_seen_jobs vault = [] := by
    rcases hv with rfl | rfl | h
    · rfl
    · rfl
    · exact h
  have hfix : filter_seen_jobs jobs vault = jobs := by
    simp only [filter_seen_jobs, hseen]
    rw [List.filter_eq_self]
    intro a _
    simp
  exact ⟨hfix, by rw [hfix]⟩

/-- Witness for C7 at a one-record list and an absent ledger. -/
theorem filter_seen_jobs_noop_witness :
    filter_seen_jobs [({url := "a"} : Job)] none = [({url := "a"} : Job)] ∧
    (filter_seen_jobs [({url := "a"} : Job)] none).length = 1 :=
  filter_seen_jobs_noop [{url := "a"}] none (Or.inl rfl)

set_option maxRecDepth 400000 in
/-- C6 counterexample: two calls of `normalize_tavily_result` on the same
raw record but different clock readings produce different canonical
records (the `scraped_at` field records the call time), refuting the
claim that equal raw records always yield equal canonical records. -/
theorem normalize_tavily_clock_cex :
    normalize_tavily_result (fun _ => "") (fun _ => "") (fun _ => "") "2025-01-01T00:00:00"
        {url := "u", title := "t"} ≠
      normalize_tavily_result (fun _ => "") (fun _ => "") (fun _ => "") "2025-01-02T00:00:00"
        {url := "u", title := "t"} := by
  decide

/-- C6 amended: `normalize_tavily_result` is pure given its input record
AND the clock reading: `scraped_at` equals the clock reading, and every
other field (including the derived `id`, which ignores `scraped_at`) is
fully determined by the raw record — two calls on equal records agree on
all fields except `scraped_at`. -/
theorem normalize_tavily_pure_given_clock :
    ∀ (ec el es : RawResult → String) (now₁ now₂ : String) (r : RawResult),
      (normalize_tavily_result ec el es now₁ r).scrapedAt = now₁ ∧
      {normalize_tavily_result ec el es now₁ r with scrapedAt := ""} =
        {normalize_tavily_result ec el es now₂ r with scrapedAt := ""} := by
  intro ec el es now₁ now₂ r
  constructor
  · rfl
  · simp only [normalize_tavily_result, Job.mk.injEq, and_true, true_and]
    exact generate_job_id_ext rfl rfl rfl rfl

end JobTracker
